import Mathlib

/-!
Shallow embedding of the `abi` package (ABI encoding and decoding for
uint64, bytes, slices of bytes, and tuples) together with proofs of the
specification claims.  Byte buffers are modelled as `List Nat` whose
entries are byte values; machine arithmetic that can overflow in the
source (`uint64` and `int` expressions appearing in decode paths) is
modelled with explicit reductions modulo `2 ^ 64`, and Go's panicking
slice expressions are modelled by an explicit out-of-range outcome.
-/

/-- Typed errors, one constructor per distinct error produced in `abi.go`,
with wrapping constructors mirroring `fmt.Errorf("..., %w", err)`. -/
inductive AbiErr : Type where
  /-- DecodeUint64: "uint64 encoding must contain 32 bytes" -/
  | u64NotThirtyTwo : AbiErr
  /-- "padding contains non-zero values" (DecodeUint64 and DecodeBytes) -/
  | paddingNonZero : AbiErr
  /-- padRight: "length %d smaller than input %d" -/
  | padTooSmall : Int → Nat → AbiErr
  /-- EncodeBytes wraps padRight failure: "padding, %w" -/
  | encodePadding : AbiErr → AbiErr
  /-- "not long enough to have a head" (DecodeBytes, DecodeSliceOfBytes) -/
  | tooShort : AbiErr
  /-- "invalid length not 32-byte aligned" -/
  | notAligned : Nat → AbiErr
  /-- DecodeBytes wraps head decode failure: "decoding data length, %w" -/
  | headDecode : AbiErr → AbiErr
  /-- DecodeBytes: "length in head is out of range" -/
  | rangeErr : AbiErr
  /-- DecodeBytes: "invalid padding length" -/
  | paddingLength : Nat → AbiErr
  /-- EncodeSliceOfBytes wraps element failure: "encoding element %d, %w" -/
  | sliceEncodeElem : Nat → AbiErr → AbiErr
  /-- DecodeSliceOfBytes wraps count decode: "decoding element count, %w" -/
  | countDecode : AbiErr → AbiErr
  /-- DecodeSliceOfBytes: "not a slice type" -/
  | notSliceType : AbiErr
  /-- DecodeSliceOfBytes: "tail too short for %d elements" -/
  | tailTooShort : Nat → AbiErr
  /-- DecodeSliceOfBytes wraps offset decode: "decoding offset for index %d, %w" -/
  | offsetDecode : Nat → AbiErr → AbiErr
  /-- DecodeSliceOfBytes: "offset at index %d out of bounds" -/
  | offsetOutOfBounds : Nat → AbiErr
  /-- DecodeSliceOfBytes: "start %d greater than end %d" -/
  | orderErr : Nat → Nat → AbiErr
  /-- DecodeSliceOfBytes wraps element decode: "decoding element %d, %w" -/
  | elementDecode : Nat → AbiErr → AbiErr
  /-- EncodeTuple / EncodeTupleFuncBytes wrap: "encoding: %w" -/
  | encodeWrap : AbiErr → AbiErr
  /-- DecodeTuple: "no decoders provided" -/
  | noDecoders : AbiErr
  /-- DecodeTuple: "not long enough to support all decoders" -/
  | tupleTooShort : AbiErr
  /-- DecodeTuple wraps element failure: "decoding element %d: %w" -/
  | tupleElem : Nat → AbiErr → AbiErr
  /-- DecodeTupleFuncUint64 wraps: "decoding: %w" -/
  | u64DecodeWrap : AbiErr → AbiErr
  /-- DecodeTupleFuncBytes wraps offset decode: "decoding offset: %w" -/
  | tOffsetDecode : AbiErr → AbiErr
  /-- DecodeTupleFuncBytes: "offset+32 out of bounds" -/
  | offsetBounds : AbiErr
  /-- DecodeTupleFuncBytes wraps length decode: "decoding length : %w" -/
  | lengthDecode : AbiErr → AbiErr
  /-- DecodeTupleFuncBytes: "end is out of bounds" -/
  | endBounds : AbiErr
  /-- DecodeTupleFuncBytes wraps bytes decode: "decoding bytes: %w" -/
  | bytesDecode : AbiErr → AbiErr
  deriving DecidableEq, Repr

/-- Outcome of running a decode operation that, in Go, may also panic on an
out-of-range slice expression.  `oob` is the panic outcome. -/
inductive GoRes (α : Type) : Type where
  | ok : α → GoRes α
  | err : AbiErr → GoRes α
  | oob : GoRes α
  deriving DecidableEq, Repr

/-- Map over the success value of a `GoRes`. -/
def GoRes.map {α β : Type} (f : α → β) : GoRes α → GoRes β
  | .ok a => .ok (f a)
  | .err e => .err e
  | .oob => .oob

/-- Go slice expression `s[i:j]` with non-negative indices: defined when
`i ≤ j ≤ len(s)`, otherwise it panics (`none`). -/
def goSlice (s : List Nat) (i j : Nat) : Option (List Nat) :=
  if i ≤ j ∧ j ≤ s.length then some ((s.drop i).take (j - i)) else none

/-- Go slice expression `s[i:j]` with `int` indices: additionally panics
when an index is negative. -/
def goSliceInt (s : List Nat) (i j : Int) : Option (List Nat) :=
  if 0 ≤ i ∧ i ≤ j ∧ j ≤ (s.length : Int) then
    some ((s.drop i.toNat).take (j - i).toNat)
  else none

/-- Reinterpret a `uint64` value as Go's `int64` (conversion `int(v)`). -/
def toInt64 (v : Nat) : Int :=
  if v < 2 ^ 63 then (v : Int) else (v : Int) - 2 ^ 64

/-- Wrap an integer into the `int64` range, modelling Go's two's-complement
overflow on `int` arithmetic. -/
def wrapInt64 (z : Int) : Int :=
  (z + 2 ^ 63) % 2 ^ 64 - 2 ^ 63

/-- Big-endian byte decomposition: the `n` low-order base-256 digits of `v`,
most significant first (`binary.BigEndian.PutUint64` for `n = 8`). -/
def beBytes (v : Nat) : Nat → List Nat
  | 0 => []
  | n + 1 => v / 256 ^ n % 256 :: beBytes v n

/-- Big-endian byte composition (`binary.BigEndian.Uint64` for 8 bytes). -/
def beVal : List Nat → Nat
  | [] => 0
  | b :: rest => b * 256 ^ rest.length + beVal rest

/-- `isNonZero` from abi.go: true when some byte differs from zero. -/
def isNonZero (b : List Nat) : Bool :=
  b.any (fun x => x ≠ 0)

/-- `EncodeUint64` from abi.go: 24 zero bytes then 8 big-endian bytes. -/
def EncodeUint64 (v : Nat) : List Nat :=
  List.replicate 24 0 ++ beBytes v 8

/-- `DecodeUint64` from abi.go. -/
def DecodeUint64 (v : List Nat) : Except AbiErr Nat :=
  if v.length ≠ 32 then .error .u64NotThirtyTwo
  else
    let padding := v.take 24
    let data := v.drop 24
    if isNonZero padding then .error .paddingNonZero
    else .ok (beVal data)

/-- `padRight` from abi.go; the target length is a Go `int`. -/
def padRight (data : List Nat) (length : Int) : Except AbiErr (List Nat) :=
  if length < (data.length : Int) then .error (.padTooSmall length data.length)
  else .ok (data ++ List.replicate (length - (data.length : Int)).toNat 0)

/-- `SliceHeader` from abi.go: 31 zero bytes then `0x20`. -/
def SliceHeader : List Nat :=
  List.replicate 31 0 ++ [0x20]

/-- `nextMultipleOf32` from abi.go; `%` on Go `int` is truncated remainder. -/
def nextMultipleOf32 (n : Int) : Int :=
  let remainder := n.tmod 32
  n + (32 - remainder).tmod 32

/-- `EncodeBytes` from abi.go. -/
def EncodeBytes (v : List Nat) : Except AbiErr (List Nat) :=
  let vLen := v.length
  let head := EncodeUint64 vLen
  match padRight v (nextMultipleOf32 vLen) with
  | .error e => .error (.encodePadding e)
  | .ok tail => .ok (head ++ tail)

/-- `DecodeBytes` from abi.go. -/
def DecodeBytes (abiEncoded : List Nat) : Except AbiErr (List Nat) :=
  let headLen := 32
  let abiEncodedLen := abiEncoded.length
  if abiEncodedLen < headLen then .error .tooShort
  else if abiEncodedLen % 32 ≠ 0 then .error (.notAligned abiEncodedLen)
  else
    let head := abiEncoded.take headLen
    let tail := abiEncoded.drop headLen
    match DecodeUint64 head with
    | .error e => .error (.headDecode e)
    | .ok dataLen =>
      if dataLen > tail.length then .error .rangeErr
      else
        let data := tail.take dataLen
        let padding := tail.drop dataLen
        if padding.length ≥ 32 then .error (.paddingLength padding.length)
        else if isNonZero padding then .error .paddingNonZero
        else .ok data

/-- The per-element loop of `EncodeSliceOfBytes`: returns the offset words
(head part built inside the loop) and the tail, threading the running
offset and the element index used in error wrapping. -/
def encodeSliceAux : List (List Nat) → Nat → Nat → Except AbiErr (List Nat × List Nat)
  | [], _, _ => .ok ([], [])
  | vi :: rest, i, offset =>
    match EncodeBytes vi with
    | .error e => .error (.sliceEncodeElem i e)
    | .ok encoded =>
      match encodeSliceAux rest (i + 1) (offset + encoded.length) with
      | .error e => .error e
      | .ok (ows, tl) => .ok (EncodeUint64 offset ++ ows, encoded ++ tl)

/-- `EncodeSliceOfBytes` from abi.go.  The running offset is only ever
accumulated and fed to `EncodeUint64`, which reduces modulo `2 ^ 64`
exactly as the `uint64` accumulator does, so it is carried exactly. -/
def EncodeSliceOfBytes (v : List (List Nat)) : Except AbiErr (List Nat) :=
  let vLen := v.length
  match encodeSliceAux v 0 (32 * vLen) with
  | .error e => .error e
  | .ok (ows, tail) =>
    .ok (SliceHeader ++ EncodeUint64 vLen ++ ows ++ tail)

/-- The offsets-reading loop of `DecodeSliceOfBytes`: iterates `fuel` times
starting at index `i`; the slice indices `i*32` and `(i+1)*32` are `uint64`
expressions and hence wrap modulo `2 ^ 64`. -/
def decodeOffsetsAux (tail : List Nat) (tailLen : Nat) (i : Nat) :
    Nat → GoRes (List Nat)
  | 0 => .ok []
  | fuel + 1 =>
    match goSlice tail (i * 32 % 2 ^ 64) ((i + 1) * 32 % 2 ^ 64) with
    | none => .oob
    | some w =>
      match DecodeUint64 w with
      | .error e => .err (.offsetDecode i e)
      | .ok offset =>
        if offset ≥ tailLen then .err (.offsetOutOfBounds i)
        else (decodeOffsetsAux tail tailLen (i + 1) fuel).map (offset :: ·)

/-- The element-extraction loop of `DecodeSliceOfBytes`: walks consecutive
pairs of the offsets list (which carries the sentinel as its last entry). -/
def decodeElemsAux (tail : List Nat) (i : Nat) : List Nat → GoRes (List (List Nat))
  | start :: stop :: rest =>
    if start ≥ stop then .err (.orderErr start stop)
    else
      match goSlice tail start stop with
      | none => .oob
      | some piece =>
        match DecodeBytes piece with
        | .error e => .err (.elementDecode i e)
        | .ok b => (decodeElemsAux tail (i + 1) (stop :: rest)).map (b :: ·)
  | _ => .ok []

/-- `DecodeSliceOfBytes` from abi.go.  `offsetsLen := 32 * eltCount` is a
`uint64` product and wraps modulo `2 ^ 64`. -/
def DecodeSliceOfBytes (abiEncoded : List Nat) : GoRes (List (List Nat)) :=
  let headLen := 64
  let abiEncodedLen := abiEncoded.length
  if abiEncodedLen < headLen then .err .tooShort
  else if abiEncodedLen % 32 ≠ 0 then .err (.notAligned abiEncodedLen)
  else
    let head := abiEncoded.take headLen
    let tail := abiEncoded.drop headLen
    let tailLen := tail.length
    let typeBytes := head.take 32
    let eltCountBytes := head.drop 32
    match DecodeUint64 eltCountBytes with
    | .error e => .err (.countDecode e)
    | .ok eltCount =>
      let offsetsLen := 32 * eltCount % 2 ^ 64
      if typeBytes ≠ SliceHeader then .err .notSliceType
      else if offsetsLen > tailLen then .err (.tailTooShort eltCount)
      else
        match decodeOffsetsAux tail tailLen 0 eltCount with
        | .oob => .oob
        | .err e => .err e
        | .ok offsets =>
          decodeElemsAux tail 0 (offsets ++ [tailLen])

/-- `EncoderResult` from abi.go. -/
structure EncoderResult : Type where
  indirect : Bool
  data : List Nat
  deriving DecidableEq, Repr

/-- An `EncoderFunc` is pure, so it is modelled by the value it returns. -/
def EncoderFunc : Type := Except AbiErr EncoderResult

/-- `EncodeTupleFuncUint64` from abi.go. -/
def EncodeTupleFuncUint64 (v : Nat) : EncoderFunc :=
  .ok { indirect := false, data := EncodeUint64 v }

/-- `EncodeTupleFuncBytes` from abi.go. -/
def EncodeTupleFuncBytes (v : List Nat) : EncoderFunc :=
  match EncodeBytes v with
  | .error e => .error (.encodeWrap e)
  | .ok data => .ok { indirect := true, data := data }

/-- The per-unit loop of `EncodeTuple`: returns the head and tail buffers,
threading the running offset. -/
def encodeTupleAux : List EncoderFunc → Nat → Except AbiErr (List Nat × List Nat)
  | [], _ => .ok ([], [])
  | encode :: rest, offset =>
    match encode with
    | .error e => .error (.encodeWrap e)
    | .ok result =>
      if !result.indirect then
        match encodeTupleAux rest offset with
        | .error e => .error e
        | .ok (h, t) => .ok (result.data ++ h, t)
      else
        match encodeTupleAux rest (offset + result.data.length) with
        | .error e => .error e
        | .ok (h, t) => .ok (EncodeUint64 offset ++ h, result.data ++ t)

/-- `EncodeTuple` from abi.go. -/
def EncodeTuple (encoders : List EncoderFunc) : Except AbiErr (List Nat) :=
  match encodeTupleAux encoders (32 * encoders.length) with
  | .error e => .error e
  | .ok (head, tail) => .ok (head ++ tail)

/-- The two decode-unit shapes used with `DecodeTuple`: the direct uint64
unit (`DecodeTupleFuncUint64`) and the indirect bytes unit
(`DecodeTupleFuncBytes`). -/
inductive DUnit : Type where
  | u64 : DUnit
  | bytes : DUnit
  deriving DecidableEq, Repr

/-- A decoded tuple field, standing for the value stored through the
decoder's out-pointer. -/
inductive TVal : Type where
  | u64 : Nat → TVal
  | bytes : List Nat → TVal
  deriving DecidableEq, Repr

/-- `DecodeTupleFuncUint64` from abi.go. -/
def DecodeTupleFuncUint64 (cur : List Nat) : GoRes TVal :=
  match DecodeUint64 cur with
  | .error e => .err (.u64DecodeWrap e)
  | .ok vv => .ok (.u64 vv)

/-- `DecodeTupleFuncBytes` from abi.go.  `offset+32` is a `uint64` sum and
wraps modulo `2 ^ 64`; `int(byteCount)` reinterprets the `uint64` as
`int64`; the additions forming `end` are `int` operations that wrap in
the `int64` range; the final slice uses `int` indices. -/
def DecodeTupleFuncBytes (cur full : List Nat) : GoRes TVal :=
  match DecodeUint64 cur with
  | .error e => .err (.tOffsetDecode e)
  | .ok offset =>
    if (offset + 32) % 2 ^ 64 > full.length then .err .offsetBounds
    else
      match goSlice full offset ((offset + 32) % 2 ^ 64) with
      | none => .oob
      | some byteCountBytes =>
        match DecodeUint64 byteCountBytes with
        | .error e => .err (.lengthDecode e)
        | .ok byteCount =>
          let alignedByteCount := wrapInt64 (nextMultipleOf32 (toInt64 byteCount))
          let start : Int := toInt64 offset
          let stop : Int := wrapInt64 (wrapInt64 (start + 32) + alignedByteCount)
          if stop > (full.length : Int) then .err .endBounds
          else
            match goSliceInt full start stop with
            | none => .oob
            | some alignedBytes =>
              match DecodeBytes alignedBytes with
              | .error e => .err (.bytesDecode e)
              | .ok vv => .ok (.bytes vv)

/-- Dispatch a decode unit on its 32-byte head slot and the full buffer. -/
def applyDUnit : DUnit → List Nat → List Nat → GoRes TVal
  | .u64, cur, _ => DecodeTupleFuncUint64 cur
  | .bytes, cur, full => DecodeTupleFuncBytes cur full

/-- The per-unit loop of `DecodeTuple`, collecting the decoded fields. -/
def decodeTupleAux (data : List Nat) : List DUnit → Nat → GoRes (List TVal)
  | [], _ => .ok []
  | u :: rest, i =>
    match goSlice data (i * 32) (i * 32 + 32) with
    | none => .oob
    | some cur =>
      match applyDUnit u cur data with
      | .oob => .oob
      | .err e => .err (.tupleElem i e)
      | .ok v => (decodeTupleAux data rest (i + 1)).map (v :: ·)

/-- `DecodeTuple` from abi.go. -/
def DecodeTuple (data : List Nat) (decoders : List DUnit) : GoRes (List TVal) :=
  if decoders.length = 0 then .err .noDecoders
  else if data.length < 32 * decoders.length then .err .tupleTooShort
  else decodeTupleAux data decoders 0

/-- The encode unit corresponding to a tuple field value, as built by
`TupleEncoder.Uint64` / `TupleEncoder.Bytes`. -/
def encUnitOf : TVal → EncoderFunc
  | .u64 v => EncodeTupleFuncUint64 v
  | .bytes b => EncodeTupleFuncBytes b

/-- The decode unit declared for a tuple field value, as built by
`TupleDecoder.Uint64` / `TupleDecoder.Bytes`. -/
def dunitOf : TVal → DUnit
  | .u64 _ => .u64
  | .bytes _ => .bytes

/-! ### Arithmetic and structural lemmas -/

theorem beBytes_length (v n : Nat) : (beBytes v n).length = n := by
  induction n with
  | zero => rfl
  | succ n ih => simp [beBytes, ih]

theorem beVal_beBytes (v n : Nat) : beVal (beBytes v n) = v % 256 ^ n := by
  induction n with
  | zero => simp [beBytes, beVal, Nat.mod_one]
  | succ n ih =>
    have hmul : v % (256 ^ n * 256) = v % 256 ^ n + 256 ^ n * (v / 256 ^ n % 256) :=
      Nat.mod_mul
    simp only [beBytes, beVal, beBytes_length, ih, pow_succ]
    rw [hmul]
    ring

theorem beVal_lt (l : List Nat) (h : ∀ b ∈ l, b < 256) :
    beVal l < 256 ^ l.length := by
  induction l with
  | nil => simp [beVal]
  | cons b rest ih =>
    have hb : b < 256 := h b (by simp)
    have hr : beVal rest < 256 ^ rest.length := ih (fun x hx => h x (by simp [hx]))
    have : b * 256 ^ rest.length + beVal rest < (b + 1) * 256 ^ rest.length := by
      nlinarith
    have h2 : (b + 1) * 256 ^ rest.length ≤ 256 * 256 ^ rest.length := by
      have : b + 1 ≤ 256 := hb
      nlinarith [pow_pos (show 0 < 256 by norm_num) rest.length]
    simp only [beVal, List.length_cons, pow_succ]
    nlinarith

theorem beBytes_add_mul (x y n : Nat) :
    beBytes (x + y * 256 ^ n) n = beBytes x n := by
  induction n generalizing y with
  | zero => rfl
  | succ n ih =>
    simp only [beBytes]
    congr 1
    · have : (x + y * 256 ^ (n + 1)) / 256 ^ n = x / 256 ^ n + y * 256 := by
        rw [pow_succ]
        rw [show y * (256 ^ n * 256) = y * 256 * 256 ^ n by ring]
        exact Nat.add_mul_div_right x (y * 256) (pow_pos (by norm_num) n)
      rw [this, Nat.add_mul_mod_self_right]
    · rw [show x + y * 256 ^ (n + 1) = x + y * 256 * 256 ^ n by ring]
      exact ih (y * 256)

theorem beBytes_beVal (l : List Nat) (h : ∀ b ∈ l, b < 256) :
    beBytes (beVal l) l.length = l := by
  induction l with
  | nil => rfl
  | cons b rest ih =>
    have hb : b < 256 := h b (by simp)
    have hr : beVal rest < 256 ^ rest.length := beVal_lt rest (fun x hx => h x (by simp [hx]))
    simp only [beVal, List.length_cons, beBytes]
    congr 1
    · rw [show b * 256 ^ rest.length + beVal rest = beVal rest + b * 256 ^ rest.length by ring]
      rw [Nat.add_mul_div_right _ _ (pow_pos (by norm_num) rest.length)]
      rw [Nat.div_eq_of_lt hr]
      simp [Nat.mod_eq_of_lt hb]
    · rw [show b * 256 ^ rest.length + beVal rest = beVal rest + b * 256 ^ rest.length by ring]
      rw [beBytes_add_mul]
      exact ih (fun x hx => h x (by simp [hx]))

theorem beBytes_lt (v n : Nat) : ∀ x ∈ beBytes v n, x < 256 := by
  induction n with
  | zero => simp [beBytes]
  | succ n ih =>
    simp only [beBytes, List.mem_cons]
    rintro x (rfl | hx)
    · exact Nat.mod_lt _ (by norm_num)
    · exact ih x hx

theorem encodeUint64_length (v : Nat) : (EncodeUint64 v).length = 32 := by
  simp [EncodeUint64, beBytes_length]

theorem isNonZero_replicate_zero (n : Nat) : isNonZero (List.replicate n 0) = false := by
  simp [isNonZero]

theorem decodeUint64_encodeUint64 (v : Nat) (h : v < 2 ^ 64) :
    DecodeUint64 (EncodeUint64 v) = .ok v := by
  have hlen : (EncodeUint64 v).length = 32 := encodeUint64_length v
  have htake : (EncodeUint64 v).take 24 = List.replicate 24 0 := by
    simp [EncodeUint64]
  have hdrop : (EncodeUint64 v).drop 24 = beBytes v 8 := by
    simp [EncodeUint64]
  have hv : v % 256 ^ 8 = v := Nat.mod_eq_of_lt (by norm_num; omega)
  simp only [DecodeUint64, hlen, htake, hdrop, isNonZero_replicate_zero]
  simp [beVal_beBytes, hv]
  omega

/-- Eliminate Go's truncated remainder in favour of the Euclidean one. -/
theorem tmod_thirtytwo (n : Int) :
    n.tmod 32 = if 0 ≤ n then n % 32 else -((-n) % 32) := by
  rcases le_or_lt 0 n with h | h
  · rw [if_pos h, Int.tmod_eq_emod h (by norm_num)]
  · rw [if_neg (by omega)]
    have h2 : (0 : Int) ≤ -n := by omega
    have e1 := Int.tmod_eq_emod h2 (show (0 : Int) ≤ 32 by norm_num)
    have e2 : (-n).tmod 32 = -(n.tmod 32) := by
      have a1 := Int.tmod_add_tdiv n 32
      have a2 := Int.tmod_add_tdiv (-n) 32
      rw [Int.neg_tdiv] at a2
      linarith
    omega

/-- The padded length `nextMultipleOf32 n` as a natural-number function. -/
def alignedLen (n : Nat) : Nat :=
  n + (32 - n % 32) % 32

theorem nextMultipleOf32_natCast (n : Nat) :
    nextMultipleOf32 (n : Int) = (alignedLen n : Int) := by
  show (n : Int) + ((32 : Int) - (n : Int).tmod 32).tmod 32 = (alignedLen n : Int)
  rw [tmod_thirtytwo ((n : Int)), if_pos (Int.natCast_nonneg n)]
  rw [tmod_thirtytwo, if_pos (by omega)]
  unfold alignedLen
  push_cast
  omega

theorem alignedLen_ge (n : Nat) : n ≤ alignedLen n := by
  unfold alignedLen; omega

theorem alignedLen_lt (n : Nat) : alignedLen n < n + 32 := by
  unfold alignedLen; omega

theorem alignedLen_mod (n : Nat) : alignedLen n % 32 = 0 := by
  unfold alignedLen; omega

theorem wrapInt64_eq_self (z : Int) (h1 : -2 ^ 63 ≤ z) (h2 : z < 2 ^ 63) :
    wrapInt64 z = z := by
  unfold wrapInt64
  omega

/-- The bytes `EncodeBytes v` successfully produces. -/
def encBytesData (v : List Nat) : List Nat :=
  EncodeUint64 v.length ++ v ++ List.replicate (alignedLen v.length - v.length) 0

theorem encodeBytes_eq (v : List Nat) : EncodeBytes v = .ok (encBytesData v) := by
  have h1 : nextMultipleOf32 (v.length : Int) = (alignedLen v.length : Int) :=
    nextMultipleOf32_natCast v.length
  have hge := alignedLen_ge v.length
  simp only [EncodeBytes, padRight, h1, encBytesData]
  rw [if_neg (by exact_mod_cast Nat.not_lt.mpr hge)]
  have h2 : ((alignedLen v.length : Int) - (v.length : Int)).toNat
      = alignedLen v.length - v.length := by omega
  simp [h2]

theorem encBytesData_length (v : List Nat) :
    (encBytesData v).length = 32 + alignedLen v.length := by
  have := alignedLen_ge v.length
  simp [encBytesData, encodeUint64_length]
  omega

theorem decodeBytes_encBytesData (v : List Nat) (h : v.length < 2 ^ 64) :
    DecodeBytes (encBytesData v) = .ok v := by
  have hge := alignedLen_ge v.length
  have hlt := alignedLen_lt v.length
  have hmod := alignedLen_mod v.length
  have hlen := encBytesData_length v
  have hhead : (encBytesData v).take 32 = EncodeUint64 v.length := by
    unfold encBytesData
    rw [List.append_assoc]
    exact List.take_left' (encodeUint64_length v.length)
  have htail : (encBytesData v).drop 32
      = v ++ List.replicate (alignedLen v.length - v.length) 0 := by
    unfold encBytesData
    rw [List.append_assoc]
    exact List.drop_left' (encodeUint64_length v.length)
  unfold DecodeBytes
  rw [if_neg (by omega)]
  rw [if_neg (by simp only [hlen]; omega)]
  simp only [hhead, htail]
  rw [decodeUint64_encodeUint64 v.length h]
  simp only [List.drop_left, List.take_left, List.length_replicate,
    isNonZero_replicate_zero, List.length_append]
  rw [if_neg (by omega), if_neg (by omega)]
  simp

/-! ### Claims C1, C7, C10 -/

/-- C1: for every uint64 `v`, `DecodeUint64 (EncodeUint64 v)` succeeds and
returns `v`; and for every byte sequence `b` (empty included),
`EncodeBytes b` succeeds and `DecodeBytes` of its output succeeds and
returns `b`.  The hypotheses state the uint64 range and Go's slice-length
range, inside which every Go value lies. -/
theorem claim_C1 :
    (∀ v : Nat, v < 2 ^ 64 → DecodeUint64 (EncodeUint64 v) = .ok v) ∧
    (∀ b : List Nat, b.length < 2 ^ 64 →
      ∃ e, EncodeBytes b = .ok e ∧ DecodeBytes e = .ok b) := by
  refine ⟨fun v hv => decodeUint64_encodeUint64 v hv, fun b hb => ?_⟩
  exact ⟨encBytesData b, encodeBytes_eq b, decodeBytes_encBytesData b hb⟩

theorem claim_C1_witness :
    DecodeUint64 (EncodeUint64 3) = .ok 3 ∧
    (∃ e, EncodeBytes [93] = .ok e ∧ DecodeBytes e = .ok [93]) ∧
    (∃ e, EncodeBytes [] = .ok e ∧ DecodeBytes e = .ok []) :=
  ⟨claim_C1.1 3 (by norm_num), claim_C1.2 [93] (by norm_num),
    claim_C1.2 [] (by norm_num)⟩

/-- C7: `nextMultipleOf32 n` is the smallest multiple of 32 that is ≥ `n`,
for every integer `n`, negative ones included. -/
theorem claim_C7 (n : Int) :
    32 ∣ nextMultipleOf32 n ∧ n ≤ nextMultipleOf32 n ∧
      ∀ m : Int, 32 ∣ m → n ≤ m → nextMultipleOf32 n ≤ m := by
  have e : nextMultipleOf32 n = n + (32 - n.tmod 32).tmod 32 := rfl
  rcases le_or_lt 0 n with hs | hs
  · have h1 : n.tmod 32 = n % 32 := by rw [tmod_thirtytwo, if_pos hs]
    have h2 : (32 - n.tmod 32).tmod 32 = (32 - n.tmod 32) % 32 := by
      rw [tmod_thirtytwo (32 - n.tmod 32), if_pos (by rw [h1]; omega)]
    refine ⟨?_, ?_, fun m hm hnm => ?_⟩ <;> rw [e] <;> omega
  · have h1 : n.tmod 32 = -((-n) % 32) := by
      rw [tmod_thirtytwo, if_neg (by omega)]
    have h2 : (32 - n.tmod 32).tmod 32 = (32 - n.tmod 32) % 32 := by
      rw [tmod_thirtytwo (32 - n.tmod 32), if_pos (by rw [h1]; omega)]
    refine ⟨?_, ?_, fun m hm hnm => ?_⟩ <;> rw [e] <;> omega

theorem claim_C7_witness :
    (32 ∣ nextMultipleOf32 (-31) ∧ (-31 : Int) ≤ nextMultipleOf32 (-31) ∧
      nextMultipleOf32 (-31) ≤ 0) ∧
    nextMultipleOf32 (-31) = 0 ∧ nextMultipleOf32 17 = 32 ∧
      nextMultipleOf32 (-63) = -32 := by
  refine ⟨⟨(claim_C7 (-31)).1, (claim_C7 (-31)).2.1,
    (claim_C7 (-31)).2.2 0 (by norm_num) (by norm_num)⟩, by decide, by decide, by decide⟩

/-- C10: `EncodeTuple` with zero encoder units succeeds with an empty
output, while `DecodeTuple` with zero decoder units always fails with the
no-decoders error. -/
theorem claim_C10 :
    EncodeTuple [] = .ok [] ∧
      ∀ data : List Nat, DecodeTuple data [] = .err .noDecoders := by
  exact ⟨rfl, fun data => rfl⟩

/-! ### Inversion lemmas for the scalar and bytes decoders -/

theorem isNonZero_eq_false (l : List Nat) :
    isNonZero l = false ↔ ∀ x ∈ l, x = 0 := by
  simp [isNonZero]

theorem decodeUint64_ok_inv (buf : List Nat) (v : Nat)
    (h : DecodeUint64 buf = .ok v) :
    buf.length = 32 ∧ isNonZero (buf.take 24) = false ∧ v = beVal (buf.drop 24) := by
  simp only [DecodeUint64] at h
  split at h
  · exact absurd h (by simp)
  · split at h
    · exact absurd h (by simp)
    · refine ⟨by omega, by simpa using (by assumption : ¬ isNonZero (List.take 24 buf) = true), ?_⟩
      injection h with h
      omega

theorem decodeBytes_ok_inv (buf b : List Nat) (h : DecodeBytes buf = .ok b) :
    32 ≤ buf.length ∧ buf.length % 32 = 0 ∧
    ∃ L, DecodeUint64 (buf.take 32) = .ok L ∧ L ≤ buf.length - 32 ∧
      buf.length - 32 - L < 32 ∧ isNonZero ((buf.drop 32).drop L) = false ∧
      b = (buf.drop 32).take L := by
  simp only [DecodeBytes] at h
  split at h
  · exact absurd h (by simp)
  split at h
  · exact absurd h (by simp)
  split at h
  · exact absurd h (by simp)
  next L hL =>
    split at h
    · exact absurd h (by simp)
    split at h
    · exact absurd h (by simp)
    split at h
    · exact absurd h (by simp)
    refine ⟨by omega, by omega, L, hL,
      by simp only [List.length_drop] at *; omega,
      by simp only [List.length_drop] at *; omega, ?_,
      by injection h with h; exact h.symm⟩
    rename_i hrange hpadlen hnz
    simpa using hnz

/-! ### Claim C8: canonicity of the uint64 and bytes decoders -/

theorem encodeUint64_canonical (buf : List Nat) (v : Nat)
    (hbytes : ∀ x ∈ buf, x < 256) (h : DecodeUint64 buf = .ok v) :
    EncodeUint64 v = buf := by
  obtain ⟨hlen, hnz, hv⟩ := decodeUint64_ok_inv buf v h
  have htake : buf.take 24 = List.replicate 24 0 := by
    rw [List.eq_replicate_iff]
    exact ⟨by simp [hlen], (isNonZero_eq_false _).mp hnz⟩
  have hdroplen : (buf.drop 24).length = 8 := by simp [hlen]
  have hdropbytes : ∀ x ∈ buf.drop 24, x < 256 :=
    fun x hx => hbytes x (List.mem_of_mem_drop hx)
  have hbe : beBytes v 8 = buf.drop 24 := by
    rw [hv, ← hdroplen]
    exact beBytes_beVal _ hdropbytes
  rw [EncodeUint64, hbe, ← htake, List.take_append_drop]

theorem encodeBytes_canonical (buf : List Nat) (b : List Nat)
    (hbytes : ∀ x ∈ buf, x < 256) (h : DecodeBytes buf = .ok b) :
    EncodeBytes b = .ok buf := by
  obtain ⟨hge, hmod, L, hLdec, hLle, hpadlen, hnz, hb⟩ := decodeBytes_ok_inv buf b h
  have hdlen : (buf.drop 32).length = buf.length - 32 := by simp
  have hhead : EncodeUint64 L = buf.take 32 :=
    encodeUint64_canonical _ L (fun x hx => hbytes x (List.mem_of_mem_take hx)) hLdec
  have hblen : b.length = L := by
    rw [hb]
    simp only [List.length_take, hdlen]
    omega
  have hplen : ((buf.drop 32).drop L).length = buf.length - 32 - L := by
    simp
    omega
  have hpad : (buf.drop 32).drop L
      = List.replicate (buf.length - 32 - L) 0 := by
    rw [List.eq_replicate_iff]
    exact ⟨hplen, (isNonZero_eq_false _).mp hnz⟩
  have hcount : alignedLen L - L = buf.length - 32 - L := by
    unfold alignedLen
    omega
  rw [encodeBytes_eq]
  unfold encBytesData
  rw [hblen, hcount, hhead, ← hpad, hb]
  rw [List.append_assoc, List.take_append_drop, List.take_append_drop]

/-- C8: the uint64 and bytes decoders accept only canonical encodings:
whenever `DecodeUint64` (resp. `DecodeBytes`) succeeds on a buffer,
re-encoding the decoded value reproduces that buffer exactly. -/
theorem claim_C8 :
    (∀ buf v, (∀ x ∈ buf, x < 256) → DecodeUint64 buf = .ok v →
      EncodeUint64 v = buf) ∧
    (∀ buf b, (∀ x ∈ buf, x < 256) → DecodeBytes buf = .ok b →
      EncodeBytes b = .ok buf) :=
  ⟨encodeUint64_canonical, encodeBytes_canonical⟩

theorem claim_C8_witness :
    EncodeUint64 5 = List.replicate 31 0 ++ [5] ∧
    EncodeBytes [7] = .ok (List.replicate 31 0 ++ [1, 7] ++ List.replicate 31 0) :=
  ⟨claim_C8.1 (List.replicate 31 0 ++ [5]) 5 (by decide) (by rfl),
    claim_C8.2 (List.replicate 31 0 ++ [1, 7] ++ List.replicate 31 0) [7]
      (by decide) (by rfl)⟩

/-! ### Claim C5: the DecodeBytes error cascade -/

/-- C5: `DecodeBytes buf` fails with the too-short error exactly when
`len(buf) < 32`; else with the alignment error exactly when `len(buf)` is
not a multiple of 32; else propagates the scalar-codec error from the
32-byte head word; else fails with the range error exactly when the
decoded length `L` exceeds `len(buf) - 32`; else, with padding the tail
bytes after the first `L`, fails with the padding-length error exactly
when the padding has 32 or more bytes; else fails with the padding error
exactly when some padding byte is non-zero; otherwise succeeds returning
the first `L` bytes of the tail. -/
theorem claim_C5 (buf : List Nat) :
    (buf.length < 32 → DecodeBytes buf = .error .tooShort) ∧
    (32 ≤ buf.length → buf.length % 32 ≠ 0 →
      DecodeBytes buf = .error (.notAligned buf.length)) ∧
    (32 ≤ buf.length → buf.length % 32 = 0 →
      (∀ e, DecodeUint64 (buf.take 32) = .error e →
        DecodeBytes buf = .error (.headDecode e)) ∧
      (∀ L, DecodeUint64 (buf.take 32) = .ok L →
        (L > buf.length - 32 → DecodeBytes buf = .error .rangeErr) ∧
        (L ≤ buf.length - 32 →
          (32 ≤ ((buf.drop 32).drop L).length →
            DecodeBytes buf
              = .error (.paddingLength ((buf.drop 32).drop L).length)) ∧
          (((buf.drop 32).drop L).length < 32 →
            (isNonZero ((buf.drop 32).drop L) = true →
              DecodeBytes buf = .error .paddingNonZero) ∧
            (isNonZero ((buf.drop 32).drop L) = false →
              DecodeBytes buf = .ok ((buf.drop 32).take L)))))) := by
  refine ⟨fun h1 => ?_, fun h1 h2 => ?_, fun h1 h2 => ⟨fun e he => ?_, fun L hL => ?_⟩⟩
  · simp only [DecodeBytes]
    rw [if_pos h1]
  · simp only [DecodeBytes]
    rw [if_neg (by omega), if_pos h2]
  · simp only [DecodeBytes]
    rw [if_neg (by omega), if_neg (by simpa using h2), he]
  · have hdlen : (buf.drop 32).length = buf.length - 32 := by simp
    have hplen : ∀ L' : Nat, ((buf.drop 32).drop L').length = buf.length - 32 - L' := by
      intro L'; simp; omega
    refine ⟨fun hr => ?_, fun hr => ⟨fun hp => ?_, fun hp => ⟨fun hz => ?_, fun hz => ?_⟩⟩⟩ <;>
      (try simp only [hplen] at hp) <;>
      (simp only [DecodeBytes]
       rw [if_neg (by omega), if_neg (by simpa using h2)]
       simp only [hL, hdlen, hplen])
    · rw [if_pos (by omega)]
    · rw [if_neg (by omega), if_pos (by omega)]
    · rw [if_neg (by omega), if_neg (by omega), if_pos hz]
    · rw [if_neg (by omega), if_neg (by omega), if_neg (by rw [hz]; simp)]

theorem claim_C5_witness :
    DecodeBytes [] = .error .tooShort ∧
    DecodeBytes (List.replicate 33 0) = .error (.notAligned 33) ∧
    DecodeBytes (EncodeUint64 1 ++ List.replicate 31 0 ++ [5])
      = .error .paddingNonZero := by
  refine ⟨(claim_C5 []).1 (by decide),
    (claim_C5 (List.replicate 33 0)).2.1 (by decide) (by decide), ?_⟩
  exact (((((claim_C5 (EncodeUint64 1 ++ List.replicate 31 0 ++ [5])).2.2
    (by decide) (by decide)).2 1 (by rfl)).2 (by decide)).2 (by decide)).1 (by decide)

/-! ### Structure of slice encodings -/

/-- The offset words that `EncodeSliceOfBytes` writes for elements `v`,
starting from running offset `o`. -/
def offWords : List (List Nat) → Nat → List Nat
  | [], _ => []
  | v :: r, o => EncodeUint64 o ++ offWords r (o + (encBytesData v).length)

/-- The offset values themselves. -/
def offList : List (List Nat) → Nat → List Nat
  | [], _ => []
  | v :: r, o => o :: offList r (o + (encBytesData v).length)

/-- The concatenated element encodings forming the slice tail. -/
def tailBytes : List (List Nat) → List Nat
  | [] => []
  | v :: r => encBytesData v ++ tailBytes r

theorem offWords_length (L : List (List Nat)) :
    ∀ o, (offWords L o).length = 32 * L.length := by
  induction L with
  | nil => intro o; simp [offWords]
  | cons v r ih =>
    intro o
    simp [offWords, encodeUint64_length, ih]
    ring

theorem offList_length (L : List (List Nat)) :
    ∀ o, (offList L o).length = L.length := by
  induction L with
  | nil => intro o; simp [offList]
  | cons v r ih => intro o; simp [offList, ih]

theorem tailBytes_mod (L : List (List Nat)) : (tailBytes L).length % 32 = 0 := by
  induction L with
  | nil => simp [tailBytes]
  | cons v r ih =>
    have h := alignedLen_mod v.length
    simp [tailBytes, encBytesData_length]
    omega

theorem tailBytes_elem_length (L : List (List Nat)) :
    ∀ v ∈ L, v.length ≤ (tailBytes L).length := by
  induction L with
  | nil => simp
  | cons w r ih =>
    intro v hv
    have hw := alignedLen_ge w.length
    rcases List.mem_cons.mp hv with rfl | hv
    · simp [tailBytes, encBytesData_length]
      omega
    · have := ih v hv
      simp [tailBytes]
      omega

/-- Every offset in `offList L o` lies at least `o` and leaves at least 32
bytes before `o + |tailBytes L|`. -/
theorem offList_bounds (L : List (List Nat)) :
    ∀ o, ∀ x ∈ offList L o, o ≤ x ∧ x + 32 ≤ o + (tailBytes L).length := by
  induction L with
  | nil => simp [offList]
  | cons v r ih =>
    intro o x hx
    have hd : 32 ≤ (encBytesData v).length := by
      have := alignedLen_ge v.length
      rw [encBytesData_length]
      omega
    rcases List.mem_cons.mp hx with rfl | hx
    · refine ⟨le_refl x, ?_⟩
      simp [tailBytes]
      omega
    · have := ih (o + (encBytesData v).length) x hx
      simp [tailBytes] at *
      omega

/-- Extract the middle of an append with `goSlice`. -/
theorem goSlice_of_append (s pre mid post : List Nat) (i j : Nat)
    (hs : s = pre ++ mid ++ post) (hi : i = pre.length)
    (hj : j = pre.length + mid.length) :
    goSlice s i j = some mid := by
  subst hs hi hj
  unfold goSlice
  rw [if_pos (by constructor <;> simp)]
  rw [List.append_assoc, List.drop_left, Nat.add_sub_cancel_left]
  rw [List.take_left]

theorem encodeSliceAux_eq (L : List (List Nat)) :
    ∀ i o, encodeSliceAux L i o = .ok (offWords L o, tailBytes L) := by
  induction L with
  | nil => intro i o; rfl
  | cons v r ih =>
    intro i o
    simp only [encodeSliceAux, encodeBytes_eq, ih, offWords, tailBytes]

theorem encodeSliceOfBytes_eq (L : List (List Nat)) :
    EncodeSliceOfBytes L
      = .ok (SliceHeader ++ EncodeUint64 L.length
          ++ offWords L (32 * L.length) ++ tailBytes L) := by
  simp only [EncodeSliceOfBytes, encodeSliceAux_eq]

theorem decodeOffsetsAux_ok (tailL : List Nat) (L : List (List Nat)) :
    ∀ i o pre post,
      tailL = pre ++ offWords L o ++ post →
      pre.length = 32 * i →
      (∀ x ∈ offList L o, x < tailL.length ∧ x < 2 ^ 64) →
      32 * (i + L.length) < 2 ^ 64 →
      decodeOffsetsAux tailL tailL.length i L.length = .ok (offList L o) := by
  induction L with
  | nil => intro i o pre post hs hpre hbnd hcap; rfl
  | cons v r ih =>
    intro i o pre post hs hpre hbnd hcap
    have hoff : o < tailL.length ∧ o < 2 ^ 64 :=
      hbnd o (by simp [offList])
    have hi1 : i * 32 % 2 ^ 64 = 32 * i := by
      rw [Nat.mod_eq_of_lt (by simp at hcap ⊢; omega)]
      ring
    have hi2 : (i + 1) * 32 % 2 ^ 64 = 32 * i + 32 := by
      rw [Nat.mod_eq_of_lt (by simp at hcap ⊢; omega)]
      ring
    have hslice : goSlice tailL (32 * i) (32 * i + 32) = some (EncodeUint64 o) := by
      refine goSlice_of_append tailL pre (EncodeUint64 o)
        (offWords r (o + (encBytesData v).length) ++ post) _ _ ?_ hpre.symm
        (by rw [hpre, encodeUint64_length])
      rw [hs]
      simp [offWords, List.append_assoc]
    show decodeOffsetsAux tailL tailL.length i (r.length + 1) = _
    rw [decodeOffsetsAux, hi1, hi2, hslice]
    simp only [decodeUint64_encodeUint64 o hoff.2]
    rw [if_neg (by omega)]
    rw [ih (i + 1) (o + (encBytesData v).length) (pre ++ EncodeUint64 o) post
      (by rw [hs]; simp [offWords, List.append_assoc])
      (by simp [encodeUint64_length]; omega)
      (fun x hx => hbnd x (by simp [offList, hx]))
      (by simp at hcap ⊢; omega)]
    rfl

theorem decodeElemsAux_ok (tailL : List Nat) (L : List (List Nat)) :
    ∀ i o pre,
      tailL = pre ++ tailBytes L →
      pre.length = o →
      (∀ v ∈ L, v.length < 2 ^ 64) →
      decodeElemsAux tailL i (offList L o ++ [tailL.length]) = .ok L := by
  induction L with
  | nil => intro i o pre hs hpre hv; rfl
  | cons v r ih =>
    intro i o pre hs hpre hv
    have hd32 : 32 ≤ (encBytesData v).length := by
      have := alignedLen_ge v.length
      rw [encBytesData_length]
      omega
    obtain ⟨restl, hrest⟩ :
        ∃ restl, offList r (o + (encBytesData v).length) ++ [tailL.length]
          = (o + (encBytesData v).length) :: restl := by
      cases r with
      | nil =>
        have hlen : tailL.length = o + (encBytesData v).length := by
          rw [hs]
          simp [tailBytes]
          omega
        exact ⟨[], by rw [offList, hlen]; rfl⟩
      | cons w rest =>
        refine ⟨offList rest
          (o + (encBytesData v).length + (encBytesData w).length)
          ++ [tailL.length], ?_⟩
        rw [offList]
        rfl
    have hchain : offList (v :: r) o ++ [tailL.length]
        = o :: (o + (encBytesData v).length) :: restl := by
      rw [offList, List.cons_append, hrest]
    have hslice : goSlice tailL o (o + (encBytesData v).length)
        = some (encBytesData v) :=
      goSlice_of_append tailL pre (encBytesData v) (tailBytes r) _ _
        (by rw [hs]; simp [tailBytes]) hpre.symm (by rw [hpre])
    rw [hchain, decodeElemsAux, if_neg (by omega), hslice]
    simp only [decodeBytes_encBytesData v (hv v (by simp))]
    rw [← hrest, ih (i + 1) (o + (encBytesData v).length) (pre ++ encBytesData v)
      (by rw [hs]; simp [tailBytes]) (by simp [hpre])
      (fun w hw => hv w (by simp [hw]))]
    rfl

/-- C2: for every finite list of byte sequences (empty list and empty
elements included), `EncodeSliceOfBytes` succeeds and `DecodeSliceOfBytes`
of its output succeeds and returns the original list.  The hypothesis
bounds the encoded size by the uint64 range, inside which every Go value
lies. -/
theorem claim_C2 (L : List (List Nat))
    (hbound : 64 + 32 * L.length + (tailBytes L).length < 2 ^ 64) :
    ∃ buf, EncodeSliceOfBytes L = .ok buf ∧ DecodeSliceOfBytes buf = .ok L := by
  refine ⟨_, encodeSliceOfBytes_eq L, ?_⟩
  have hmodT := tailBytes_mod L
  have hshl : SliceHeader.length = 32 := by decide
  set k := L.length with hk
  set T := (tailBytes L).length with hT
  set tailL := offWords L (32 * k) ++ tailBytes L with htl
  set buf := SliceHeader ++ EncodeUint64 k ++ offWords L (32 * k) ++ tailBytes L
    with hbuf
  have htlen : tailL.length = 32 * k + T := by
    simp [htl, offWords_length]
  have hbl : buf.length = 64 + 32 * k + T := by
    simp [hbuf, hshl, encodeUint64_length, offWords_length]
    omega
  have hassoc : buf = (SliceHeader ++ EncodeUint64 k) ++ tailL := by
    simp [hbuf, htl]
  have htake : buf.take 64 = SliceHeader ++ EncodeUint64 k := by
    rw [hassoc]
    exact List.take_left' (by simp [hshl, encodeUint64_length])
  have hdrop : buf.drop 64 = tailL := by
    rw [hassoc]
    exact List.drop_left' (by simp [hshl, encodeUint64_length])
  have htype : (SliceHeader ++ EncodeUint64 k).take 32 = SliceHeader :=
    List.take_left' hshl
  have hcnt : (SliceHeader ++ EncodeUint64 k).drop 32 = EncodeUint64 k :=
    List.drop_left' hshl
  have hoffs : decodeOffsetsAux tailL tailL.length 0 k = .ok (offList L (32 * k)) := by
    refine decodeOffsetsAux_ok tailL L 0 (32 * k) [] (tailBytes L) (by simp [htl])
      (by simp) ?_ (by omega)
    intro x hx
    have := offList_bounds L (32 * k) x hx
    omega
  have helems : decodeElemsAux tailL 0 (offList L (32 * k) ++ [tailL.length])
      = .ok L := by
    refine decodeElemsAux_ok tailL L 0 (32 * k) (offWords L (32 * k)) (by simp [htl])
      (by simp [offWords_length]) ?_
    intro v hv
    have := tailBytes_elem_length L v hv
    omega
  simp only [DecodeSliceOfBytes]
  rw [if_neg (by omega), if_neg (by omega)]
  rw [htake, hdrop, htype, hcnt]
  simp only [decodeUint64_encodeUint64 k (by omega)]
  rw [if_neg (by simp)]
  rw [if_neg (by rw [Nat.mod_eq_of_lt (by omega)]; omega)]
  rw [hoffs]
  exact helems

theorem claim_C2_witness :
    (∃ buf, EncodeSliceOfBytes [[15], []] = .ok buf ∧
      DecodeSliceOfBytes buf = .ok [[15], []]) ∧
    (∃ buf, EncodeSliceOfBytes [] = .ok buf ∧
      DecodeSliceOfBytes buf = .ok []) :=
  ⟨claim_C2 [[15], []] (by decide), claim_C2 [] (by decide)⟩

/-! ### Structure of tuple encodings -/

/-- The head words `EncodeTuple` writes for field values `vs`, with the
running tail offset starting at `o`: direct uint64 fields contribute their
own word, indirect bytes fields contribute an offset word. -/
def headWords : List TVal → Nat → List Nat
  | [], _ => []
  | .u64 v :: r, o => EncodeUint64 v ++ headWords r o
  | .bytes b :: r, o => EncodeUint64 o ++ headWords r (o + (encBytesData b).length)

/-- The tail `EncodeTuple` writes: the element encodings of the indirect
(bytes) fields, in declaration order. -/
def tailData : List TVal → List Nat
  | [] => []
  | .u64 _ :: r => tailData r
  | .bytes b :: r => encBytesData b ++ tailData r

/-- The per-field bound making a field value a Go value: uint64 fields fit
in 64 bits. -/
def tvalOK : TVal → Prop
  | .u64 v => v < 2 ^ 64
  | .bytes _ => True

theorem headWords_length (vs : List TVal) :
    ∀ o, (headWords vs o).length = 32 * vs.length := by
  induction vs with
  | nil => intro o; simp [headWords]
  | cons t r ih =>
    intro o
    cases t with
    | u64 v => simp [headWords, encodeUint64_length, ih]; ring
    | bytes b => simp [headWords, encodeUint64_length, ih]; ring

theorem encodeTupleAux_eq (vs : List TVal) :
    ∀ o, encodeTupleAux (vs.map encUnitOf) o = .ok (headWords vs o, tailData vs) := by
  induction vs with
  | nil => intro o; rfl
  | cons t r ih =>
    intro o
    cases t with
    | u64 v =>
      simp only [List.map_cons, encodeTupleAux, encUnitOf, EncodeTupleFuncUint64,
        ih, headWords, tailData]
      simp
    | bytes b =>
      simp only [List.map_cons, encodeTupleAux, encUnitOf, EncodeTupleFuncBytes,
        encodeBytes_eq, ih, headWords, tailData]
      simp

theorem encodeTuple_eq (vs : List TVal) :
    EncodeTuple (vs.map encUnitOf)
      = .ok (headWords vs (32 * vs.length) ++ tailData vs) := by
  simp only [EncodeTuple, List.length_map, encodeTupleAux_eq]

theorem goSliceInt_of_append (s pre mid post : List Nat) (i j : Int)
    (hs : s = pre ++ mid ++ post) (hi : i = (pre.length : Int))
    (hj : j = (pre.length : Int) + mid.length) :
    goSliceInt s i j = some mid := by
  subst hs hi hj
  unfold goSliceInt
  rw [if_pos ⟨by positivity, by omega, by simp⟩]
  have h1 : ((pre.length : Int)).toNat = pre.length := by omega
  have h2 : ((pre.length : Int) + (mid.length : Int) - pre.length).toNat
      = mid.length := by omega
  rw [h1, h2, List.append_assoc, List.drop_left, List.take_left]

theorem decodeTupleAux_ok (buf : List Nat) (hblen : buf.length < 2 ^ 63)
    (vs : List TVal) :
    ∀ i o preH rest,
      buf = preH ++ headWords vs o ++ rest →
      preH.length = 32 * i →
      buf.drop o = tailData vs →
      o + (tailData vs).length = buf.length →
      (∀ t ∈ vs, tvalOK t) →
      decodeTupleAux buf (vs.map dunitOf) i = .ok vs := by
  induction vs with
  | nil => intro i o preH rest hs hpre hdrop hlen hok; rfl
  | cons t r ih =>
    intro i o preH rest hs hpre hdrop hlen hok
    cases t with
    | u64 v =>
      have hv : v < 2 ^ 64 := hok (.u64 v) (by simp)
      have hcur : goSlice buf (i * 32) (i * 32 + 32) = some (EncodeUint64 v) := by
        refine goSlice_of_append buf preH (EncodeUint64 v)
          (headWords r o ++ rest) _ _ ?_ (by omega)
          (by rw [encodeUint64_length]; omega)
        rw [hs]
        simp [headWords, List.append_assoc]
      simp only [List.map_cons, dunitOf, decodeTupleAux, hcur, applyDUnit,
        DecodeTupleFuncUint64, decodeUint64_encodeUint64 v hv]
      rw [ih (i + 1) o (preH ++ EncodeUint64 v) rest
        (by rw [hs]; simp [headWords, List.append_assoc])
        (by simp [encodeUint64_length]; omega)
        hdrop hlen (fun t ht => hok t (by simp [ht]))]
      rfl
    | bytes b =>
      have hd : (encBytesData b).length = 32 + alignedLen b.length :=
        encBytesData_length b
      have hal1 := alignedLen_ge b.length
      have hal2 := alignedLen_lt b.length
      have hdropo : buf.drop o = encBytesData b ++ tailData r := by
        rw [hdrop]; rfl
      have hfit : o + (encBytesData b).length + (tailData r).length
          = buf.length := by
        have : (tailData (TVal.bytes b :: r)).length
            = (encBytesData b).length + (tailData r).length := by
          simp [tailData]
        omega
      have ho_le : o ≤ buf.length := by omega
      have htako : (buf.take o).length = o := by
        simp
        omega
      have hsplit : buf = buf.take o ++ encBytesData b ++ tailData r := by
        conv_lhs => rw [← List.take_append_drop o buf]
        rw [hdropo, List.append_assoc]
      have hblt : b.length + 32 ≤ (encBytesData b).length := by omega
      have hcur : goSlice buf (i * 32) (i * 32 + 32) = some (EncodeUint64 o) := by
        refine goSlice_of_append buf preH (EncodeUint64 o)
          (headWords r (o + (encBytesData b).length) ++ rest) _ _ ?_ (by omega)
          (by rw [encodeUint64_length]; omega)
        rw [hs]
        simp [headWords, List.append_assoc]
      have hcnt : goSlice buf o (o + 32) = some (EncodeUint64 b.length) := by
        refine goSlice_of_append buf (buf.take o) (EncodeUint64 b.length)
          ((b ++ List.replicate (alignedLen b.length - b.length) 0) ++ tailData r)
          _ _ (hsplit.trans (by simp only [encBytesData, List.append_assoc]))
          htako.symm (by rw [htako, encodeUint64_length])
      have hslice : goSliceInt buf (o : Int) ((o : Int) + 32 + alignedLen b.length)
          = some (encBytesData b) := by
        exact goSliceInt_of_append buf (buf.take o) (encBytesData b) (tailData r)
          _ _ hsplit (by rw [htako]) (by rw [htako, hd]; push_cast; ring)
      have ho64 : o < 2 ^ 64 := by omega
      have hb64 : b.length < 2 ^ 64 := by omega
      have hmod32 : (o + 32) % 2 ^ 64 = o + 32 := Nat.mod_eq_of_lt (by omega)
      have htoo : toInt64 o = (o : Int) := by
        unfold toInt64
        rw [if_pos (by omega)]
      have htob : toInt64 b.length = (b.length : Int) := by
        unfold toInt64
        rw [if_pos (by omega)]
      have halign : wrapInt64 (nextMultipleOf32 (toInt64 b.length))
          = (alignedLen b.length : Int) := by
        rw [htob, nextMultipleOf32_natCast]
        exact wrapInt64_eq_self _ (by omega) (by omega)
      have hstop : wrapInt64 (wrapInt64 ((o : Int) + 32) + (alignedLen b.length : Int))
          = (o : Int) + 32 + alignedLen b.length := by
        rw [wrapInt64_eq_self ((o : Int) + 32) (by omega) (by omega)]
        exact wrapInt64_eq_self _ (by omega) (by omega)
      have hdrop2 : buf.drop (o + (encBytesData b).length) = tailData r := by
        have h1 : buf.drop (o + (encBytesData b).length)
            = (buf.drop o).drop (encBytesData b).length := by
          rw [List.drop_drop, Nat.add_comm]
        rw [h1, hdropo, List.drop_left]
      simp only [List.map_cons, dunitOf, decodeTupleAux, hcur, applyDUnit,
        DecodeTupleFuncBytes, decodeUint64_encodeUint64 o ho64, hmod32]
      rw [if_neg (by omega)]
      rw [hcnt]
      simp only [decodeUint64_encodeUint64 b.length hb64, htoo, halign, hstop]
      rw [if_neg (by omega)]
      rw [hslice]
      simp only [decodeBytes_encBytesData b hb64]
      rw [ih (i + 1) (o + (encBytesData b).length) (preH ++ EncodeUint64 o) rest
        (by rw [hs]; simp [headWords, List.append_assoc])
        (by simp [encodeUint64_length]; omega)
        hdrop2 hfit
        (fun t ht => hok t (by simp [ht]))]
      rfl

/-- C3: for every non-empty tuple of uint64/bytes field values, in any
order, `EncodeTuple` with the corresponding encode units succeeds, and
`DecodeTuple` on its output with the matching decode units in the same
order succeeds and reproduces every field exactly.  The hypotheses state
the uint64 range of each field and the Go `int` range of the encoded
size, inside which every Go value lies. -/
instance tvalOK.dec : DecidablePred tvalOK
  | .u64 v => inferInstanceAs (Decidable (v < 2 ^ 64))
  | .bytes _ => .isTrue trivial

theorem claim_C3 (vs : List TVal) (hne : vs ≠ [])
    (hok : ∀ t ∈ vs, tvalOK t)
    (hbound : 32 * vs.length + (tailData vs).length < 2 ^ 63) :
    ∃ buf, EncodeTuple (vs.map encUnitOf) = .ok buf ∧
      DecodeTuple buf (vs.map dunitOf) = .ok vs := by
  refine ⟨_, encodeTuple_eq vs, ?_⟩
  set buf := headWords vs (32 * vs.length) ++ tailData vs with hbuf
  have hbl : buf.length = 32 * vs.length + (tailData vs).length := by
    simp [hbuf, headWords_length]
  have haux : decodeTupleAux buf (vs.map dunitOf) 0 = .ok vs := by
    refine decodeTupleAux_ok buf (by omega) vs 0 (32 * vs.length) [] (tailData vs)
      (by simp [hbuf]) (by simp) ?_ (by omega) hok
    rw [hbuf]
    exact List.drop_left' (headWords_length vs (32 * vs.length))
  simp only [DecodeTuple, List.length_map]
  rw [if_neg (by simpa using hne), if_neg (by omega)]
  exact haux

theorem claim_C3_witness :
    ∃ buf,
      EncodeTuple ([TVal.u64 7, TVal.bytes [1, 2], TVal.u64 9].map encUnitOf)
        = .ok buf ∧
      DecodeTuple buf ([TVal.u64 7, TVal.bytes [1, 2], TVal.u64 9].map dunitOf)
        = .ok [TVal.u64 7, TVal.bytes [1, 2], TVal.u64 9] :=
  claim_C3 [TVal.u64 7, TVal.bytes [1, 2], TVal.u64 9] (by decide)
    (by decide) (by decide)

/-! ### Claim C4: decoder totality fails — two overflow-induced panics -/

/-- C4 (refuted): the claim says no input can make a decode operation
panic, but two inputs do.  A 64-byte buffer whose element count is
`2 ^ 59` makes `offsetsLen := 32 * eltCount` wrap to 0 in `uint64`, so the
tail-length guard passes and the offsets loop slices past the empty tail;
and a tuple buffer whose bytes element declares length `2 ^ 63` makes
`int(byteCount)` negative, so `end` is negative and the final slice
expression panics. -/
theorem claim_C4_counterexample :
    DecodeSliceOfBytes (SliceHeader ++ EncodeUint64 (2 ^ 59)) = .oob ∧
    DecodeTuple (EncodeUint64 32 ++ EncodeUint64 (2 ^ 63)) [.bytes] = .oob := by
  constructor
  · have hoff : decodeOffsetsAux ([] : List Nat) 0 0 (2 ^ 59) = .oob := by
      have he : (2 ^ 59 : Nat) = (2 ^ 59 - 1) + 1 := by norm_num
      rw [he, decodeOffsetsAux]
      decide
    have hstep : DecodeSliceOfBytes (SliceHeader ++ EncodeUint64 (2 ^ 59))
        = match decodeOffsetsAux ([] : List Nat) 0 0 (2 ^ 59) with
          | .oob => .oob
          | .err e => .err e
          | .ok offsets => decodeElemsAux [] 0 (offsets ++ [0]) := rfl
    rw [hstep, hoff]
  · decide

/-! ### Claim C6: tail-relative array offsets vs buffer-absolute tuple offsets -/

set_option maxRecDepth 20000 in
/-- C6: `EncodeSliceOfBytes` writes element offsets measured from the
start of the tail that follows the 64-byte head (the first offset word
holds `32*k` and the first element's encoding sits at that position
inside the tail), and `DecodeSliceOfBytes` indexes the tail with them,
while `EncodeTuple` writes offsets measured from the start of the whole
buffer (the running offset starts at `32*n` and the first indirect
element's encoding sits at that absolute position), and the bytes decode
unit indexes the full buffer: on the concrete decoder inputs below, the
slice element is found 64 bytes into the tail although its offset word
reads 64 (which would fall inside the offset table if read absolutely),
and the tuple element is found at absolute position 32, which is inside
what would be the tuple's tail only when read from the buffer start. -/
theorem claim_C6 :
    (∀ (v : List Nat) (rest : List (List Nat)),
      ∃ buf, EncodeSliceOfBytes (v :: rest) = .ok buf ∧
        buf.take 64 = SliceHeader ++ EncodeUint64 (v :: rest).length ∧
        (buf.drop 64).take 32 = EncodeUint64 (32 * (v :: rest).length) ∧
        ((buf.drop 64).drop (32 * (v :: rest).length)).take (encBytesData v).length
          = encBytesData v) ∧
    (∀ (b : List Nat) (rest : List TVal),
      ∃ buf, EncodeTuple ((TVal.bytes b :: rest).map encUnitOf) = .ok buf ∧
        buf.take 32 = EncodeUint64 (32 * (TVal.bytes b :: rest).length) ∧
        (buf.drop (32 * (TVal.bytes b :: rest).length)).take (encBytesData b).length
          = encBytesData b) ∧
    DecodeSliceOfBytes (SliceHeader ++ EncodeUint64 1 ++ EncodeUint64 64
      ++ List.replicate 32 238 ++ (EncodeUint64 1 ++ [5] ++ List.replicate 31 0))
      = .ok [[5]] ∧
    DecodeTuple (EncodeUint64 32 ++ (EncodeUint64 1 ++ [9] ++ List.replicate 31 0))
      [.bytes] = .ok [TVal.bytes [9]] := by
  refine ⟨fun v rest => ⟨_, encodeSliceOfBytes_eq (v :: rest), ?_, ?_, ?_⟩,
    fun b rest => ⟨_, encodeTuple_eq (TVal.bytes b :: rest), ?_, ?_⟩, by decide, by decide⟩
  · rw [show SliceHeader ++ EncodeUint64 (v :: rest).length
      ++ offWords (v :: rest) (32 * (v :: rest).length) ++ tailBytes (v :: rest)
      = (SliceHeader ++ EncodeUint64 (v :: rest).length)
        ++ (offWords (v :: rest) (32 * (v :: rest).length) ++ tailBytes (v :: rest))
      by simp [List.append_assoc]]
    exact List.take_left' (by simp [encodeUint64_length]; decide)
  · rw [show SliceHeader ++ EncodeUint64 (v :: rest).length
      ++ offWords (v :: rest) (32 * (v :: rest).length) ++ tailBytes (v :: rest)
      = (SliceHeader ++ EncodeUint64 (v :: rest).length)
        ++ (offWords (v :: rest) (32 * (v :: rest).length) ++ tailBytes (v :: rest))
      by simp [List.append_assoc]]
    rw [List.drop_left' (by simp [encodeUint64_length]; decide)]
    rw [show offWords (v :: rest) (32 * (v :: rest).length) ++ tailBytes (v :: rest)
      = EncodeUint64 (32 * (v :: rest).length)
        ++ (offWords rest (32 * (v :: rest).length + (encBytesData v).length)
          ++ tailBytes (v :: rest)) by simp [offWords, List.append_assoc]]
    exact List.take_left' (encodeUint64_length _)
  · rw [show SliceHeader ++ EncodeUint64 (v :: rest).length
      ++ offWords (v :: rest) (32 * (v :: rest).length) ++ tailBytes (v :: rest)
      = (SliceHeader ++ EncodeUint64 (v :: rest).length)
        ++ (offWords (v :: rest) (32 * (v :: rest).length) ++ tailBytes (v :: rest))
      by simp [List.append_assoc]]
    rw [List.drop_left' (by simp [encodeUint64_length]; decide)]
    rw [List.drop_left' (offWords_length (v :: rest) _)]
    rw [show tailBytes (v :: rest) = encBytesData v ++ tailBytes rest from rfl]
    exact List.take_left' rfl
  · rw [show headWords (TVal.bytes b :: rest) (32 * (TVal.bytes b :: rest).length)
      ++ tailData (TVal.bytes b :: rest)
      = EncodeUint64 (32 * (TVal.bytes b :: rest).length)
        ++ (headWords rest (32 * (TVal.bytes b :: rest).length
            + (encBytesData b).length) ++ tailData (TVal.bytes b :: rest))
      by simp [headWords, List.append_assoc]]
    exact List.take_left' (encodeUint64_length _)
  · rw [List.drop_left' (headWords_length (TVal.bytes b :: rest) _)]
    rw [show tailData (TVal.bytes b :: rest) = encBytesData b ++ tailData rest from rfl]
    exact List.take_left' rfl

/-! ### Claim C9: DecodeSliceOfBytes accepts non-canonical input -/

/-- C9: `DecodeSliceOfBytes` accepts inputs that are not canonical
encodings: with any 32 gap bytes between the offset table and the first
element (so the content of the gap is never examined and the first offset
is 64 rather than `32*1`), decoding succeeds and returns `[[7]]`, whose
canonical encoding differs from every such buffer. -/
theorem claim_C9 :
    (∀ g : List Nat, g.length = 32 →
      DecodeSliceOfBytes (SliceHeader ++ EncodeUint64 1
        ++ (EncodeUint64 64 ++ g ++ (EncodeUint64 1 ++ [7] ++ List.replicate 31 0)))
        = .ok [[7]]) ∧
    EncodeSliceOfBytes [[7]]
      = .ok (SliceHeader ++ EncodeUint64 1 ++ EncodeUint64 32
          ++ (EncodeUint64 1 ++ [7] ++ List.replicate 31 0)) ∧
    (∀ g : List Nat, g.length = 32 →
      SliceHeader ++ EncodeUint64 1 ++ EncodeUint64 32
          ++ (EncodeUint64 1 ++ [7] ++ List.replicate 31 0)
        ≠ SliceHeader ++ EncodeUint64 1
          ++ (EncodeUint64 64 ++ g ++ (EncodeUint64 1 ++ [7] ++ List.replicate 31 0))) ∧
    (64 : Nat) ≠ 32 * 1 := by
  have hsh : SliceHeader.length = 32 := by decide
  have hE : encBytesData [7] = EncodeUint64 1 ++ [7] ++ List.replicate 31 0 := rfl
  have hElen : (EncodeUint64 1 ++ [7] ++ List.replicate 31 0).length = 64 := by
    simp [encodeUint64_length]
  refine ⟨fun g hg => ?_, ?_, fun g hg h => ?_, by decide⟩
  · set E := EncodeUint64 1 ++ [7] ++ List.replicate 31 0 with hEdef
    set tl := EncodeUint64 64 ++ g ++ E with htldef
    set buf := SliceHeader ++ EncodeUint64 1 ++ tl with hbufdef
    have htlen : tl.length = 128 := by
      simp [htldef, encodeUint64_length, hg, hElen]
    have hblen : buf.length = 192 := by
      simp [hbufdef, hsh, encodeUint64_length, htlen]
    have hsplit : buf = (SliceHeader ++ EncodeUint64 1) ++ tl := by
      simp [hbufdef, List.append_assoc]
    have htake : buf.take 64 = SliceHeader ++ EncodeUint64 1 := by
      rw [hsplit]
      exact List.take_left' (by simp [hsh, encodeUint64_length])
    have hdrop : buf.drop 64 = tl := by
      rw [hsplit]
      exact List.drop_left' (by simp [hsh, encodeUint64_length])
    have hoffs : decodeOffsetsAux tl 128 0 1 = .ok [64] := by
      have hcur : goSlice tl (0 * 32 % 2 ^ 64) ((0 + 1) * 32 % 2 ^ 64)
          = some (EncodeUint64 64) := by
        refine goSlice_of_append tl [] (EncodeUint64 64) (g ++ E) _ _ ?_
          (by norm_num) (by simp [encodeUint64_length])
        simp [htldef, List.append_assoc]
      have e1 : (1 : Nat) = 0 + 1 := rfl
      rw [e1, decodeOffsetsAux, hcur]
      simp only [decodeUint64_encodeUint64 64 (by norm_num)]
      rw [if_neg (by omega)]
      rfl
    have helems : decodeElemsAux tl 0 [64, 128] = .ok [[7]] := by
      have hpiece : goSlice tl 64 128 = some E := by
        refine goSlice_of_append tl (EncodeUint64 64 ++ g) E [] _ _ ?_
          (by simp [encodeUint64_length, hg]) ?_
        · simp [htldef, List.append_assoc]
        · rw [hEdef, hElen]
          simp [encodeUint64_length, hg]
      have hdecE : DecodeBytes E = .ok [7] := by
        rw [hEdef]
        exact decodeBytes_encBytesData [7] (by norm_num)
      rw [decodeElemsAux, if_neg (by omega), hpiece]
      simp only [hdecE]
      rfl
    simp only [DecodeSliceOfBytes]
    rw [if_neg (by omega), if_neg (by omega)]
    rw [htake, hdrop]
    rw [List.take_left' hsh, List.drop_left' hsh]
    simp only [decodeUint64_encodeUint64 1 (by norm_num)]
    rw [if_neg (by simp)]
    have hol : 32 * 1 % 2 ^ 64 = 32 := by norm_num
    simp only [hol, htlen]
    rw [if_neg (by norm_num)]
    rw [hoffs]
    exact helems
  · rw [encodeSliceOfBytes_eq]
    rfl
  · have := congrArg List.length h
    simp [hsh, encodeUint64_length, hg, hElen] at this

theorem claim_C9_witness :
    DecodeSliceOfBytes (SliceHeader ++ EncodeUint64 1
      ++ (EncodeUint64 64 ++ List.replicate 32 170
        ++ (EncodeUint64 1 ++ [7] ++ List.replicate 31 0))) = .ok [[7]] ∧
    SliceHeader ++ EncodeUint64 1 ++ EncodeUint64 32
        ++ (EncodeUint64 1 ++ [7] ++ List.replicate 31 0)
      ≠ SliceHeader ++ EncodeUint64 1
        ++ (EncodeUint64 64 ++ List.replicate 32 170
          ++ (EncodeUint64 1 ++ [7] ++ List.replicate 31 0)) :=
  ⟨claim_C9.1 (List.replicate 32 170) (by decide),
    claim_C9.2.2.1 (List.replicate 32 170) (by decide)⟩
